import Mathlib

/-!
Verification of the `MeVec` growable-array container
(`src/collections/vec.rs`).

The container is shallowly embedded: the buffer's live prefix is a
`List α`, the capacity a `Nat`, and the backing pointer's identity a
`Nat` tag (`blk`) that a reallocation replaces.  Machine integers are
`Nat` (sizes are far from overflow in every claim considered here);
`saturating_sub` is `Nat` subtraction, which is already truncated.

A second, pointer-level model (`HVec`, further down) embeds the same
code over an explicit heap of allocatable blocks.  It is needed for
`extend_from_within`, whose behaviour depends on a raw slice pointer
surviving a reallocation; the list-level model reads the source range
by value and cannot express that aliasing.
-/

/-- Models `usize::next_power_of_two` (Rust): the smallest power of two
at or above `n`, with `0` and `1` both mapping to `1`.  Computed by
doubling from `1` with explicit fuel so that it reduces definitionally. -/
def nextPowerOfTwoAux (n : Nat) : Nat → Nat → Nat
  | 0, power => power
  | fuel + 1, power => if n ≤ power then power else nextPowerOfTwoAux n fuel (power * 2)

def next_power_of_two (n : Nat) : Nat :=
  nextPowerOfTwoAux n n 1

theorem nextPowerOfTwoAux_ge (n : Nat) :
    ∀ fuel power : Nat, n ≤ power * 2 ^ fuel → n ≤ nextPowerOfTwoAux n fuel power
  | 0, power, h => by simpa using h
  | fuel + 1, power, h => by
    unfold nextPowerOfTwoAux
    split
    · assumption
    · refine nextPowerOfTwoAux_ge n fuel (power * 2) ?_
      calc n ≤ power * 2 ^ (fuel + 1) := h
        _ = power * 2 * 2 ^ fuel := by ring

theorem nextPowerOfTwoAux_pow (n : Nat) :
    ∀ fuel j : Nat, ∃ k, nextPowerOfTwoAux n fuel (2 ^ j) = 2 ^ k
  | 0, j => ⟨j, rfl⟩
  | fuel + 1, j => by
    unfold nextPowerOfTwoAux
    split
    · exact ⟨j, rfl⟩
    · have h := nextPowerOfTwoAux_pow n fuel (j + 1)
      rwa [pow_succ] at h

theorem nextPowerOfTwoAux_le (n : Nat) :
    ∀ fuel j k : Nat, n ≤ 2 ^ k → 2 ^ j ≤ 2 ^ k →
      nextPowerOfTwoAux n fuel (2 ^ j) ≤ 2 ^ k
  | 0, j, k, _, hjk => hjk
  | fuel + 1, j, k, hn, hjk => by
    unfold nextPowerOfTwoAux
    split
    · exact hjk
    · rename_i hlt
      have h1 : 2 ^ j < 2 ^ k := lt_of_lt_of_le (Nat.not_le.mp hlt) hn
      have h2 : j < k := (Nat.pow_lt_pow_iff_right (by norm_num)).mp h1
      have h3 : 2 ^ (j + 1) ≤ 2 ^ k := Nat.pow_le_pow_right (by norm_num) h2
      have h := nextPowerOfTwoAux_le n fuel (j + 1) k hn h3
      rwa [pow_succ] at h

theorem le_next_power_of_two (n : Nat) : n ≤ next_power_of_two n := by
  refine nextPowerOfTwoAux_ge n n 1 ?_
  simpa using Nat.le_of_lt (Nat.lt_two_pow n)

theorem next_power_of_two_isPow (n : Nat) : ∃ k, next_power_of_two n = 2 ^ k := by
  simpa [next_power_of_two] using nextPowerOfTwoAux_pow n n 0

theorem next_power_of_two_min (n k : Nat) (h : n ≤ 2 ^ k) :
    next_power_of_two n ≤ 2 ^ k := by
  have h1 : (1 : Nat) ≤ 2 ^ k := Nat.one_le_two_pow
  simpa [next_power_of_two] using nextPowerOfTwoAux_le n n 0 k h (by simpa using h1)

/-- From the spec: `c` is "the next power of two `>= m`" — a power of
two, at least `m`, and no larger than any other power of two `>= m`. -/
def IsNextPow2Geq (m c : Nat) : Prop :=
  (∃ k, c = 2 ^ k) ∧ m ≤ c ∧ ∀ d, (∃ k, d = 2 ^ k) → m ≤ d → c ≤ d

/-- `usize::MAX`; `replace_range` turns an unbounded end into it. -/
def USIZE_MAX : Nat := 2 ^ 64 - 1

/-- The `std::ops::Bound<usize>` values a `RangeBounds<usize>` yields. -/
inductive MeBound where
  | included (n : Nat)
  | excluded (n : Nat)
  | unbounded
deriving DecidableEq

/-- List-level model of `MeVec<T>`: `data` is the live prefix
`[0, len)` of the buffer (so `len = data.length`), `cap` the allocated
capacity, `blk` the identity of the backing allocation (a reallocation
hands out a fresh tag). -/
structure MeVec (α : Type) where
  data : List α
  cap : Nat
  blk : Nat
deriving DecidableEq

namespace MeVec

/-- `MeVec::len`. -/
def len (v : MeVec α) : Nat := v.data.length

/-- `MeVec::new`: no allocation, capacity 0, length 0. -/
def new : MeVec α := ⟨[], 0, 0⟩

/-- `MeVec::with_capacity`: allocates `max(capacity, 1)` slots. -/
def with_capacity (α : Type) (capacity : Nat) : MeVec α :=
  ⟨[], max capacity 1, 0⟩

/-- `MeVec::reserve`: grow to `next_power_of_two(len + additional)`
when `len + additional > cap`, copying the live elements to a fresh
block and freeing the old one. -/
def reserve (v : MeVec α) (additional : Nat) : MeVec α :=
  if v.cap < v.data.length + additional then
    ⟨v.data, next_power_of_two (v.data.length + additional), v.blk + 1⟩
  else v

/-- `MeVec::reserve_exact`: the body in the source is identical to
`reserve` (the power-of-two policy governs it too). -/
def reserve_exact (v : MeVec α) (additional : Nat) : MeVec α :=
  if v.cap < v.data.length + additional then
    ⟨v.data, next_power_of_two (v.data.length + additional), v.blk + 1⟩
  else v

/-- `MeVec::shrink_to_fit`: if `len < cap`, reallocate down to
`max(len, 1)` — but only when that is strictly below `cap`. -/
def shrink_to_fit (v : MeVec α) : MeVec α :=
  if v.data.length < v.cap then
    if max v.data.length 1 < v.cap then
      ⟨v.data, max v.data.length 1, v.blk + 1⟩
    else v
  else v

/-- `MeVec::clear`: the guard `!self.ptr.as_ptr().is_null()` always
passes (the pointer is a `NonNull`), `drop_in_place` runs, and the
length is reset to 0. -/
def clear (v : MeVec α) : MeVec α :=
  ⟨[], v.cap, v.blk⟩

/-- The indices whose destructors `MeVec::clear` runs:
`drop_in_place(self.ptr.as_ptr())` drops a single `T` at the front of
the buffer, whatever the length. -/
def clear_dropped_indices (_v : MeVec α) : List Nat := [0]

/-- `MeVec::truncate`: when `new_len < len`, drop a tail and set the
length to `new_len`. -/
def truncate (v : MeVec α) (new_len : Nat) : MeVec α :=
  if new_len < v.data.length then ⟨v.data.take new_len, v.cap, v.blk⟩ else v

/-- The indices whose destructors `MeVec::truncate` runs: the loop
drops `ptr.add(i)` for `i in new_len..len` with
`ptr = self.as_mut_ptr().add(new_len)`, i.e. absolute index
`new_len + i`. -/
def truncate_dropped_indices (v : MeVec α) (new_len : Nat) : List Nat :=
  if new_len < v.data.length then
    (List.range' new_len (v.data.length - new_len)).map (fun i => new_len + i)
  else []

/-- `MeVec::push`: reserve one slot when full, write the value at index
`len`, increment the length; the returned `&mut T` is modelled as the
index of the written slot. -/
def push (v : MeVec α) (value : α) : MeVec α × Nat :=
  let v1 := if v.data.length = v.cap then v.reserve 1 else v
  (⟨v1.data ++ [value], v1.cap, v1.blk⟩, v1.data.length)

/-- `MeVec::from_iter`: start from `new` and `push` each item. -/
def from_iter (items : List α) : MeVec α :=
  items.foldl (fun s item => (s.push item).1) new

/-- `MeVec::new_repeated`: `reserve(count)` from `new`, write `count`
clones, then `set_len(count)`. -/
def new_repeated (value : α) (count : Nat) : MeVec α :=
  let v := (new : MeVec α).reserve count
  ⟨List.replicate count value, v.cap, v.blk⟩

/-- `MeVec::resize` (for `T: Copy`): reserve when `new_len > cap`, fill
`[len, new_len)` with `value` when growing, then `set_len(new_len)`
unconditionally (shrinking truncates with no destructor calls). -/
def resize (v : MeVec α) (new_len : Nat) (value : α) : MeVec α :=
  let v1 := if v.cap < new_len then v.reserve (new_len - v.data.length) else v
  let v2 :=
    if v1.data.length < new_len then
      ⟨v1.data ++ List.replicate (new_len - v1.data.length) value, v1.cap, v1.blk⟩
    else v1
  ⟨v2.data.take new_len, v2.cap, v2.blk⟩

/-- `MeVec::extend`: pull the first item; if there is one, `push` it
and then `push` the rest. -/
def extend (v : MeVec α) (items : List α) : MeVec α :=
  match items with
  | [] => v
  | first :: rest => rest.foldl (fun s item => (s.push item).1) (v.push first).1

/-- `MeVec::extend_from_slice`: when the slice is non-empty, reserve
`src.len()` and copy it after the live prefix. -/
def extend_from_slice (v : MeVec α) (src : List α) : MeVec α :=
  if 0 < src.length then
    let v1 := v.reserve src.length
    ⟨v1.data ++ src, v1.cap, v1.blk⟩
  else v

/-- `MeVec::extend_from_within` at the list level: resolve the bounds
(`Unbounded` end means `self.len`), and when `start < end ≤ len` feed
the range to `extend_from_slice`.  The list model reads the source
range by value; the pointer-level `HVec` model below keeps it as a raw
pointer, which is what the source actually does. -/
def extend_from_within (v : MeVec α) (sb eb : MeBound) : MeVec α :=
  let start := match sb with
    | .included s => s
    | .excluded s => s + 1
    | .unbounded => 0
  let e := match eb with
    | .included e2 => e2 + 1
    | .excluded e2 => e2
    | .unbounded => v.data.length
  if start < e ∧ e ≤ v.data.length then
    v.extend_from_slice ((v.data.drop start).take (e - start))
  else v

/-- `MeVec::retain`: early return on an empty container, otherwise a
single forward pass with a write cursor that compacts the kept
elements in place; `set_len(write_index)` at the end. -/
def retain (v : MeVec α) (f : α → Bool) : MeVec α :=
  if v.data.length = 0 then v
  else ⟨v.data.foldl (fun acc item => if f item then acc ++ [item] else acc) [], v.cap, v.blk⟩

/-- `MeVec::replace_impl` (for `T: Copy`): clamp the range, early
return when nothing is deleted and nothing inserted, reserve when the
insertion outgrows the deletion, shift the `tail_len` trailing elements
from `off + del_len` to `off + src_len`, and copy `src` in at `off`. -/
def replace_impl (v : MeVec α) (start e : Nat) (src : List α) : MeVec α :=
  let dst_len := v.data.length
  let src_len := src.length
  let off := min start dst_len
  let del_len := min (e - off) (dst_len - off)
  if del_len = 0 ∧ src_len = 0 then v
  else
    let tail_len := dst_len - off - del_len
    let v1 := if del_len < src_len then v.reserve (src_len - del_len) else v
    ⟨v1.data.take off ++ src ++ (v1.data.drop (off + del_len)).take tail_len, v1.cap, v1.blk⟩

/-- `MeVec::replace_range`: resolve the bounds (`Unbounded` end is
`usize::MAX`) and call `replace_impl`. -/
def replace_range (v : MeVec α) (sb eb : MeBound) (src : List α) : MeVec α :=
  let start := match sb with
    | .included s => s
    | .excluded s => s + 1
    | .unbounded => 0
  let e := match eb with
    | .included e2 => e2 + 1
    | .excluded e2 => e2
    | .unbounded => USIZE_MAX
  v.replace_impl start e src

/-- `MeVec::iter` iterates the live prefix in storage order. -/
def iter (v : MeVec α) : List α := v.data

/-- The `length <= capacity` invariant of the data model (§3). -/
def Inv (v : MeVec α) : Prop := v.data.length ≤ v.cap

instance (v : MeVec α) : Decidable v.Inv := by
  unfold Inv; infer_instance

end MeVec

/-- Pushing a whole list, one element at a time. -/
def pushAll (v : MeVec α) (xs : List α) : MeVec α :=
  xs.foldl (fun s x => (s.push x).1) v

/-- Reference model, from the spec's words: clamp the start to the
current length, clamp the deletion length to the remaining element
count, then splice — delete the clamped range and insert `src` at that
position in the plain ordered sequence. -/
def spliceRef (dst : List α) (start e : Nat) (src : List α) : List α :=
  let off := min start dst.length
  let del := min (e - off) (dst.length - off)
  dst.take off ++ src ++ dst.drop (off + del)

/-! ### Pointer-level model

`extend_from_within` in the source captures a raw slice
(`slice::from_raw_parts(self.ptr.as_ptr().add(start), end - start)`)
and only then calls `extend_from_slice`, whose `reserve` may move the
buffer to a fresh block and free the old one.  To express that, the
heap is explicit: a list of blocks, each a list of cells; a freed
block's cells read back as `none` (poison). -/

/-- A heap of allocatable blocks.  `blocks[i] = none` means block `i`
has been freed; a live block is a list of cells, `none` marking an
uninitialized (or clobbered) cell. -/
structure Heap (α : Type) where
  blocks : List (Option (List (Option α)))
deriving DecidableEq

namespace Heap

/-- Allocate a fresh block of `n` uninitialized cells; returns its id. -/
def alloc (h : Heap α) (n : Nat) : Heap α × Nat :=
  (⟨h.blocks ++ [some (List.replicate n none)]⟩, h.blocks.length)

/-- `dealloc`: the freed block's cells become unreadable. -/
def free (h : Heap α) (b : Nat) : Heap α :=
  ⟨h.blocks.set b none⟩

/-- Read the raw cell at offset `i` of block `b`; a freed or invalid
block reads as poison. -/
def readCell (h : Heap α) (b i : Nat) : Option α :=
  match h.blocks.getD b none with
  | some cells => cells.getD i none
  | none => none

/-- Write the raw cell at offset `i` of block `b`. -/
def writeCell (h : Heap α) (b i : Nat) (c : Option α) : Heap α :=
  ⟨h.blocks.set b
    (match h.blocks.getD b none with
     | some cells => some (cells.set i c)
     | none => none)⟩

/-- `ptr::copy_nonoverlapping`: copy `n` raw cells from
`(sb, so)` to `(db, dof)`, front to back. -/
def copyCells (h : Heap α) (sb so db dof : Nat) : Nat → Heap α
  | 0 => h
  | n + 1 => copyCells (h.writeCell db dof (h.readCell sb so)) sb (so + 1) db (dof + 1) n

end Heap

/-- Pointer-level model of `MeVec<T>`: the current block id stands for
`self.ptr`. -/
structure HVec (α : Type) where
  heap : Heap α
  blk : Nat
  cap : Nat
  len : Nat
deriving DecidableEq

namespace HVec

/-- `MeVec::reserve` at the pointer level: on growth, allocate the
power-of-two block, `copy_nonoverlapping` the `len` live cells into
it, `dealloc` the old block (the null check on a `NonNull` pointer
always passes), and install the new pointer and capacity. -/
def reserve (s : HVec α) (additional : Nat) : HVec α :=
  if s.cap < s.len + additional then
    let new_cap := next_power_of_two (s.len + additional)
    let p := s.heap.alloc new_cap
    let h2 := Heap.copyCells p.1 s.blk 0 p.2 0 s.len
    let h3 := h2.free s.blk
    ⟨h3, p.2, new_cap, s.len⟩
  else s

/-- `MeVec::extend_from_slice` at the pointer level: the source slice
is a pointer `(srcBlk, srcOff)` plus a length, read only *after*
`reserve` — exactly as in the source, where `src.as_ptr()` is
dereferenced after the possible reallocation. -/
def extend_from_slice (s : HVec α) (srcBlk srcOff srcLen : Nat) : HVec α :=
  if 0 < srcLen then
    let s1 := s.reserve srcLen
    let h2 := Heap.copyCells s1.heap srcBlk srcOff s1.blk s1.len srcLen
    ⟨h2, s1.blk, s1.cap, s1.len + srcLen⟩
  else s

/-- `MeVec::extend_from_within` at the pointer level (bounds already
resolved to `[start, e)`): when `start < e ≤ len`, capture the slice as
a pointer into the *current* block and hand it to
`extend_from_slice`. -/
def extend_from_within (s : HVec α) (start e : Nat) : HVec α :=
  if start < e ∧ e ≤ s.len then
    s.extend_from_slice s.blk start (e - start)
  else s

end HVec

/-- A concrete two-element container in the pointer-level model: one
live block holding `[1, 2]`, capacity 2, length 2. -/
def hvecTwo : HVec Nat := ⟨⟨[some [some 1, some 2]]⟩, 0, 2, 2⟩

/-! ### Basic facts about `reserve` -/

theorem reserve_data (v : MeVec α) (a : Nat) : (v.reserve a).data = v.data := by
  unfold MeVec.reserve
  split <;> rfl

theorem reserve_cap_ge (v : MeVec α) (a : Nat) :
    v.data.length + a ≤ (v.reserve a).cap := by
  unfold MeVec.reserve
  split
  · exact le_next_power_of_two _
  · omega

theorem reserve_cap_mono (v : MeVec α) (a : Nat) : v.cap ≤ (v.reserve a).cap := by
  unfold MeVec.reserve
  split
  · exact le_trans (le_of_lt (by omega)) (le_next_power_of_two _)
  · exact le_refl _

theorem reserve_exact_eq_reserve (v : MeVec α) (a : Nat) :
    v.reserve_exact a = v.reserve a := rfl

/-- The `tail_len`-element shifted tail is the whole suffix past the
deleted range. -/
theorem take_sub_drop (l : List α) (off del : Nat) :
    (l.drop (off + del)).take (l.length - off - del) = l.drop (off + del) := by
  apply List.take_of_length_le
  simp only [List.length_drop]
  omega

/-- C1: for every container state, start, end and `src`, `replace_impl`
(and hence `replace_range` with the corresponding bounds) produces
exactly the contents of the reference-model splice on a plain ordered
sequence — start clamped to the length, deletion length clamped to the
remaining count — covering every size relationship between the deleted
and inserted lengths; and a zero-delete zero-insert call leaves the
whole state (contents, capacity, backing block) untouched. -/
theorem replace_range_matches_splice (α : Type) (v : MeVec α) (start e : Nat)
    (src : List α) :
    (v.replace_impl start e src).data = spliceRef v.data start e src
    ∧ v.replace_range (MeBound.included start) (MeBound.excluded e) src
        = v.replace_impl start e src
    ∧ ((min (e - min start v.data.length)
          (v.data.length - min start v.data.length) = 0 ∧ src = []) →
        v.replace_impl start e src = v) := by
  refine ⟨?_, rfl, ?_⟩
  · unfold MeVec.replace_impl spliceRef
    simp only
    split
    · rename_i h
      obtain ⟨hdel, hsrc⟩ := h
      have hsrc' : src = [] := List.length_eq_zero.mp hsrc
      subst hsrc'
      rw [hdel]
      simp [List.take_append_drop]
    · dsimp only
      split
      · rw [reserve_data, take_sub_drop]
      · rw [take_sub_drop]
  · rintro ⟨hdel, hsrc⟩
    subst hsrc
    unfold MeVec.replace_impl
    simp [hdel]

/-- Witness for the no-op clause of C1 at a concrete input. -/
theorem replace_range_matches_splice_witness :
    MeVec.replace_impl ⟨[1, 2, 3], 4, 0⟩ 1 1 ([] : List Nat) = ⟨[1, 2, 3], 4, 0⟩ :=
  (replace_range_matches_splice Nat ⟨[1, 2, 3], 4, 0⟩ 1 1 []).2.2 ⟨by decide, rfl⟩

/-- Two container states with the same fields are equal. -/
theorem mevec_eq_of_fields (u w : MeVec α) (h1 : u.data = w.data)
    (h2 : u.cap = w.cap) (h3 : u.blk = w.blk) : u = w := by
  cases u; cases w; simp_all

/-- The write-cursor compaction pass of `retain` computes `filter`. -/
theorem retain_fold_eq_filter (f : α → Bool) (l acc : List α) :
    l.foldl (fun acc item => if f item then acc ++ [item] else acc) acc
      = acc ++ l.filter f := by
  induction l generalizing acc with
  | nil => simp
  | cons x xs ih =>
    simp only [List.foldl_cons, List.filter_cons]
    split <;> rename_i h <;> simp [h, ih]

/-- The live prefix after `retain` is the filtered live prefix. -/
theorem retain_data (v : MeVec α) (q : α → Bool) :
    (v.retain q).data = v.data.filter q := by
  unfold MeVec.retain
  split
  · rename_i h
    rw [List.length_eq_zero.mp h]
    rfl
  · dsimp only
    rw [retain_fold_eq_filter]
    rfl

/-- C7: `retain(predicate)` keeps exactly the elements satisfying the
predicate (it computes `filter`), preserves their relative order, ends
with length equal to the count of satisfying elements, and with the
always-true predicate changes nothing at all. -/
theorem retain_spec (α : Type) (v : MeVec α) (p : α → Bool) :
    (v.retain p).data = v.data.filter p
    ∧ (v.retain p).data.length = v.data.countP p
    ∧ v.retain (fun _ => true) = v := by
  have hdata : ∀ q : α → Bool, (v.retain q).data = v.data.filter q :=
    fun q => retain_data v q
  refine ⟨hdata p, ?_, ?_⟩
  · rw [hdata p, List.countP_eq_length_filter]
  · have h := hdata (fun _ => true)
    have hcap : (v.retain (fun _ => true)).cap = v.cap := by
      unfold MeVec.retain; split <;> rfl
    have hblk : (v.retain (fun _ => true)).blk = v.blk := by
      unfold MeVec.retain; split <;> rfl
    have hd : (v.retain (fun _ => true)).data = v.data := by
      rw [h]; simp
    exact mevec_eq_of_fields _ _ hd hcap hblk

/-- `push` appends the value to the live prefix. -/
theorem push_data (v : MeVec α) (x : α) :
    (v.push x).1.data = v.data ++ [x] := by
  unfold MeVec.push
  dsimp only
  split
  · rw [reserve_data]
  · rfl

/-- `push` keeps `cap` at least as large as before and large enough. -/
theorem push_cap (v : MeVec α) (x : α) (h : v.data.length ≤ v.cap) :
    (v.push x).1.data.length ≤ (v.push x).1.cap := by
  unfold MeVec.push
  dsimp only
  split
  · rename_i he
    have h1 := reserve_cap_ge v 1
    rw [reserve_data]
    simp only [List.length_append, List.length_cons, List.length_nil]
    omega
  · simp only [List.length_append, List.length_cons, List.length_nil]
    omega

theorem pushAll_data (v : MeVec α) (xs : List α) :
    (pushAll v xs).data = v.data ++ xs := by
  induction xs generalizing v with
  | nil => simp [pushAll]
  | cons x rest ih =>
    simp only [pushAll, List.foldl_cons] at ih ⊢
    rw [ih, push_data]
    simp

/-- C8: starting from `new`, a sequence of `N` pushes yields length `N`
and iteration yields exactly the pushed elements in order; and each
individual `push` returns (the index of) a slot that holds the value
just inserted. -/
theorem push_sequence_spec (α : Type) (xs : List α) (v : MeVec α) (x : α) :
    (pushAll (MeVec.new) xs).data = xs
    ∧ (pushAll (MeVec.new) xs).iter = xs
    ∧ (pushAll (MeVec.new) xs).len = xs.length
    ∧ (v.push x).2 = v.len
    ∧ (v.push x).1.data.getD (v.push x).2 x = x
    ∧ (v.push x).1.data.take (v.push x).2 = v.data := by
  have hall : (pushAll (MeVec.new : MeVec α) xs).data = xs := by
    rw [pushAll_data]; rfl
  have hidx : (v.push x).2 = v.data.length := by
    unfold MeVec.push
    dsimp only
    split
    · rw [reserve_data]
    · rfl
  refine ⟨hall, hall, by rw [MeVec.len, hall], hidx, ?_, ?_⟩
  · rw [push_data, hidx]
    simp [List.getD_append_right]
  · rw [push_data, hidx, List.take_append_of_le_length (le_refl _), List.take_length]

/-- C10: `extend_from_slice` with an empty slice and `extend` with an
empty iterator leave the container state — contents, length, capacity
and backing block — exactly unchanged. -/
theorem extend_empty_noop (α : Type) (v : MeVec α) :
    v.extend_from_slice [] = v ∧ v.extend [] = v :=
  ⟨rfl, rfl⟩

/-- C4: after `reserve(additional)` the capacity is at least
`length + additional`, the contents (hence the length) are unchanged,
the capacity never decreases, and whenever growth actually occurred
(`length + additional` exceeded the old capacity) the new capacity is
exactly the next power of two at or above `length + additional`;
`reserve_exact` is the very same function. -/
theorem reserve_growth_spec (α : Type) (v : MeVec α) (additional : Nat) :
    (v.data.length + additional ≤ (v.reserve additional).cap
      ∧ (v.reserve additional).data = v.data
      ∧ v.cap ≤ (v.reserve additional).cap
      ∧ (v.cap < v.data.length + additional →
          IsNextPow2Geq (v.data.length + additional) (v.reserve additional).cap))
    ∧ v.reserve_exact additional = v.reserve additional := by
  refine ⟨⟨reserve_cap_ge v additional, reserve_data v additional,
    reserve_cap_mono v additional, ?_⟩, reserve_exact_eq_reserve v additional⟩
  intro hgrow
  unfold MeVec.reserve
  rw [if_pos hgrow]
  refine ⟨next_power_of_two_isPow _, le_next_power_of_two _, ?_⟩
  rintro d ⟨k, rfl⟩ hm
  exact next_power_of_two_min _ k hm

/-- Witness for the growth clause of C4 at a concrete input: growing a
capacity-2 container to hold 6 gives capacity 8. -/
theorem reserve_growth_spec_witness :
    IsNextPow2Geq ((⟨[1, 2, 3], 2, 0⟩ : MeVec Nat).data.length + 3)
      ((⟨[1, 2, 3], 2, 0⟩ : MeVec Nat).reserve 3).cap :=
  (reserve_growth_spec Nat ⟨[1, 2, 3], 2, 0⟩ 3).1.2.2.2 (by decide)

/-- C5 counterexample: on a never-allocated container (`new`, capacity
0) `shrink_to_fit` is a no-op, so the capacity afterwards is 0, not
`max(length, 1) = 1`. -/
theorem shrink_to_fit_new_counterexample :
    ¬ ((MeVec.new : MeVec Nat).shrink_to_fit.cap
        = max (MeVec.new : MeVec Nat).shrink_to_fit.data.length 1) := by
  decide

/-- C5 (amended): for a container that owns an allocation
(`capacity > 0`) and satisfies the `length <= capacity` invariant,
`shrink_to_fit` leaves the capacity at exactly `max(length, 1)`,
preserves contents and length, and is a complete no-op when the
capacity is already minimal; a capacity-0 container stays at capacity
0. -/
theorem shrink_to_fit_amended (α : Type) (v : MeVec α) (hcap : 0 < v.cap)
    (hinv : v.data.length ≤ v.cap) :
    v.shrink_to_fit.cap = max v.data.length 1
    ∧ v.shrink_to_fit.data = v.data
    ∧ (v.cap = max v.data.length 1 → v.shrink_to_fit = v) := by
  unfold MeVec.shrink_to_fit
  by_cases h1 : v.data.length < v.cap
  · by_cases h2 : max v.data.length 1 < v.cap
    · rw [if_pos h1, if_pos h2]
      exact ⟨rfl, rfl, fun h3 => absurd h3 (by omega)⟩
    · rw [if_pos h1, if_neg h2]
      exact ⟨by omega, rfl, fun _ => rfl⟩
  · rw [if_neg h1]
    exact ⟨by omega, rfl, fun _ => rfl⟩

/-- Witness for C5 (amended) at a concrete input: contents `[5, 6]`
with capacity 4 shrink to capacity 2. -/
theorem shrink_to_fit_amended_witness :
    (⟨[5, 6], 4, 0⟩ : MeVec Nat).shrink_to_fit.cap
      = max (⟨[5, 6], 4, 0⟩ : MeVec Nat).data.length 1 :=
  (shrink_to_fit_amended Nat ⟨[5, 6], 4, 0⟩ (by decide) (by decide)).1

/-- C2 divergence, evaluated at the failing input `[10, 20]` (length
2): the single `drop_in_place(self.ptr.as_ptr())` in `clear` destructs
only index 0, while the claim requires every index in `[0, 2)`; the
length is still reset to 0. -/
theorem clear_drops_only_first :
    MeVec.clear_dropped_indices (⟨[10, 20], 2, 0⟩ : MeVec Nat) = [0]
    ∧ List.range (⟨[10, 20], 2, 0⟩ : MeVec Nat).len = [0, 1]
    ∧ ([0] : List Nat) ≠ [0, 1]
    ∧ (MeVec.clear (⟨[10, 20], 2, 0⟩ : MeVec Nat)).len = 0 := by
  decide

/-- C3 divergence, evaluated at the failing input `[10, 20]` (length
2) with `truncate(1)`: the loop drops the element at absolute index
`new_len + i` for `i in new_len..len`, here index 2 — one past the
live region — instead of index 1 as the claim requires; the length is
still set to 1 and the capacity kept. -/
theorem truncate_drops_wrong_indices :
    MeVec.truncate_dropped_indices (⟨[10, 20], 2, 0⟩ : MeVec Nat) 1 = [2]
    ∧ List.range' 1 ((⟨[10, 20], 2, 0⟩ : MeVec Nat).len - 1) = [1]
    ∧ ([2] : List Nat) ≠ [1]
    ∧ (MeVec.truncate (⟨[10, 20], 2, 0⟩ : MeVec Nat) 1).len = 1
    ∧ (MeVec.truncate (⟨[10, 20], 2, 0⟩ : MeVec Nat) 1).cap = 2 := by
  decide

/-- C6 divergence, evaluated at the failing input `hvecTwo`
(`[1, 2]`, capacity 2) with `extend_from_within(0..2)`: the raw slice
is captured before `extend_from_slice` calls `reserve`, the growth to
capacity 4 frees the old block, and the copy then reads the freed
block — the two appended cells are poison, not the pre-call `[1, 2)`
range values `1` and `2`. -/
theorem extend_from_within_growth_reads_freed :
    hvecTwo.heap.readCell hvecTwo.blk 0 = some 1
    ∧ hvecTwo.heap.readCell hvecTwo.blk 1 = some 2
    ∧ (hvecTwo.extend_from_within 0 2).len = 4
    ∧ (hvecTwo.extend_from_within 0 2).cap = 4
    ∧ (hvecTwo.extend_from_within 0 2).heap.readCell
        (hvecTwo.extend_from_within 0 2).blk 2 = none
    ∧ (hvecTwo.extend_from_within 0 2).heap.readCell
        (hvecTwo.extend_from_within 0 2).blk 3 = none
    ∧ (hvecTwo.extend_from_within 0 2).heap.blocks.getD hvecTwo.blk none = none := by
  decide

/-! ### The `length <= capacity` invariant -/

theorem inv_reserve (v : MeVec α) (a : Nat) (_h : v.Inv) : (v.reserve a).Inv := by
  unfold MeVec.Inv at *
  rw [reserve_data]
  exact le_trans (Nat.le_add_right _ a) (reserve_cap_ge v a)

theorem inv_push (v : MeVec α) (x : α) (h : v.Inv) : (v.push x).1.Inv :=
  push_cap v x h

theorem inv_foldl_push (xs : List α) (v : MeVec α) (h : v.Inv) :
    (xs.foldl (fun s x => (s.push x).1) v).Inv := by
  induction xs generalizing v with
  | nil => exact h
  | cons x rest ih => exact ih _ (inv_push v x h)

theorem inv_new : (MeVec.new : MeVec α).Inv := Nat.le_refl 0

theorem inv_extend_from_slice (v : MeVec α) (src : List α) (h : v.Inv) :
    (v.extend_from_slice src).Inv := by
  unfold MeVec.extend_from_slice MeVec.Inv at *
  split
  · dsimp only
    rw [reserve_data]
    simp only [List.length_append]
    exact reserve_cap_ge v src.length
  · exact h

theorem inv_replace_impl (v : MeVec α) (start e : Nat) (src : List α) (h : v.Inv) :
    (v.replace_impl start e src).Inv := by
  unfold MeVec.replace_impl MeVec.Inv at *
  dsimp only
  split
  · exact h
  · split <;> rename_i h2
    · dsimp only
      have hge := reserve_cap_ge v
        (src.length - min (e - min start v.data.length) (v.data.length - min start v.data.length))
      rw [reserve_data]
      simp only [List.length_append, List.length_take, List.length_drop]
      omega
    · dsimp only
      simp only [List.length_append, List.length_take, List.length_drop]
      omega

/-- C9: `length <= capacity` holds for every constructor result (`new`,
`with_capacity`, `from_iter`, `new_repeated`) and is preserved by every
safe operation: `push`, `reserve`, `reserve_exact`, `shrink_to_fit`,
`clear`, `truncate`, `resize`, `extend`, `extend_from_slice`,
`extend_from_within`, `retain`, `replace_impl` and `replace_range`. -/
theorem invariant_preserved (α : Type) (v : MeVec α) (n a b count : Nat) (x : α)
    (xs : List α) (p : α → Bool) (sb eb : MeBound) :
    (MeVec.new : MeVec α).Inv
    ∧ (MeVec.with_capacity α n).Inv
    ∧ (MeVec.from_iter xs).Inv
    ∧ (MeVec.new_repeated x count).Inv
    ∧ (v.Inv →
        (v.push x).1.Inv
        ∧ (v.reserve a).Inv
        ∧ (v.reserve_exact a).Inv
        ∧ v.shrink_to_fit.Inv
        ∧ v.clear.Inv
        ∧ (v.truncate n).Inv
        ∧ (v.resize n x).Inv
        ∧ (v.extend xs).Inv
        ∧ (v.extend_from_slice xs).Inv
        ∧ (v.extend_from_within sb eb).Inv
        ∧ (v.retain p).Inv
        ∧ (v.replace_impl a b xs).Inv
        ∧ (v.replace_range sb eb xs).Inv) := by
  refine ⟨inv_new, Nat.zero_le _, inv_foldl_push xs MeVec.new inv_new, ?_, ?_⟩
  · unfold MeVec.new_repeated MeVec.Inv
    dsimp only
    simp only [List.length_replicate]
    simpa [MeVec.new] using reserve_cap_ge (MeVec.new : MeVec α) count
  · intro h
    refine ⟨inv_push v x h, inv_reserve v a h, inv_reserve v a h, ?_, Nat.zero_le _,
      ?_, ?_, ?_, inv_extend_from_slice v xs h, ?_, ?_, inv_replace_impl v a b xs h,
      inv_replace_impl v _ _ xs h⟩
    · unfold MeVec.shrink_to_fit MeVec.Inv at *
      split
      · split
        · dsimp only; omega
        · exact h
      · exact h
    · unfold MeVec.truncate MeVec.Inv at *
      split
      · dsimp only; simp only [List.length_take]; omega
      · exact h
    · unfold MeVec.resize MeVec.Inv at *
      dsimp only
      split <;> rename_i h1
      · have hge := reserve_cap_ge v (n - v.data.length)
        have hd := reserve_data v (n - v.data.length)
        split <;> rename_i h2
        · dsimp only
          rw [hd] at h2 ⊢
          simp only [List.length_take, List.length_append, List.length_replicate]
          omega
        · rw [hd] at h2 ⊢
          simp only [List.length_take]
          omega
      · split <;> rename_i h2
        · simp only [List.length_take, List.length_append, List.length_replicate]
          omega
        · simp only [List.length_take]
          omega
    · unfold MeVec.extend
      match xs with
      | [] => exact h
      | first :: rest => exact inv_foldl_push rest _ (inv_push v first h)
    · unfold MeVec.extend_from_within
      dsimp only
      split
      · exact inv_extend_from_slice v _ h
      · exact h
    · unfold MeVec.Inv at *
      rw [retain_data]
      have hcap : (v.retain p).cap = v.cap := by
        unfold MeVec.retain; split <;> rfl
      rw [hcap]
      exact le_trans (List.length_filter_le p v.data) h

/-- Witness for C9 at a concrete input satisfying the invariant. -/
theorem invariant_preserved_witness :
    ((⟨[1, 2], 4, 0⟩ : MeVec Nat).push 7).1.Inv :=
  ((invariant_preserved Nat ⟨[1, 2], 4, 0⟩ 1 2 3 4 7 [8, 9] (fun _ => true)
    MeBound.unbounded MeBound.unbounded).2.2.2.2 (by decide)).1
